import Mathlib

/-
Verification of the burr state-machine core: the State container, the
pluggable serialization registry (type-level and field-level codecs), and
the application executor (step / iterate / run with synchronous and
asynchronous variants), together with the concrete CustomClass codec of
examples/custom-serde/notebook.ipynb.

The State container, serde registry and Application executor live in the
burr library itself, whose implementation files are not part of this
repository snapshot (only the Applications documentation page and the
custom-serde example notebook are).  Those components are therefore
modelled from the specification, as marked on each definition.  The
CustomClass and field-level codecs are translated directly from the
notebook source.
-/

namespace Burr

/-- JSON-compatible values: the target of serialization (section 6 of the
spec: a single JSON-compatible mapping of string keys). -/
inductive Json where
  | jnull
  | jbool (b : Bool)
  | jint (n : Int)
  | jstr (s : String)
  | jarr (xs : List Json)
  | jobj (entries : List (String × Json))

/-- In-memory state values: JSON-native scalars, sequences and mappings,
plus opaque third-party values (`vforeign tyId reprV`, a value of a
registered third-party type identified by `tyId` whose internal data is
`reprV`).  Modelled from the spec: the burr value universe handled by the
serde subsystem (spec section 4.2) is not part of this repository
snapshot. -/
inductive Value where
  | vnull
  | vbool (b : Bool)
  | vint (n : Int)
  | vstr (s : String)
  | vlist (xs : List Value)
  | vdict (entries : List (String × Value))
  | vforeign (tyId : String) (reprV : Value)

/-- First-match lookup of a key in an association list, the model of a
Python dict access used throughout. -/
def lookupKey {α : Type} (k : String) : List (String × α) → Option α
  | [] => none
  | (k2, v) :: rest => if k2 = k then some v else lookupKey k rest

/-- The reserved marker key embedded in every type-level serialized
mapping, `serde.KEY` in burr; its literal value appears in the serialized
output shown in the notebook. -/
def serdeKEY : String := "__burr_serde__"

/-- Reserved bookkeeping key recording the prior executed action name. -/
def priorStepKEY : String := "__PRIOR_STEP"

/-- Reserved bookkeeping key recording the sequence id. -/
def sequenceIdKEY : String := "__SEQUENCE_ID"

/-- Modelled from the spec: the process-wide serde registry (spec section
3, SerdeRegistry), whose burr implementation is not in this repository
snapshot.  `typeSer` maps a value-type identifier to its registered
serializer (which returns the full serialized mapping, marker included,
as `serialize_customclass` does in the notebook); `typeDe` maps a marker
identifier to its registered deserializer; `fieldSerde` maps a state
field name to a (serializer, deserializer) pair registered through
`register_field_serde`. -/
structure Registry where
  typeSer : String → Option (Value → List (String × Json))
  typeDe : String → Option (List (String × Json) → Option Value)
  fieldSerde : String → Option ((Value → List (String × Json)) × (List (String × Json) → Option Value))

mutual

/-- Modelled from the spec: serialization of one value (spec section 4.2,
serialization algorithm steps 2 and 3): a registered type-level
serializer is invoked on foreign values, JSON-native scalars pass
through, sequences and mappings recurse elementwise, and an unhandled
foreign type is a serialization failure (`UnserializableTypeError`),
rendered here as `none`. -/
def serializeValue (reg : Registry) : Value → Option Json
  | .vnull => some .jnull
  | .vbool b => some (.jbool b)
  | .vint n => some (.jint n)
  | .vstr s => some (.jstr s)
  | .vlist xs => (serializeList reg xs).map .jarr
  | .vdict es => (serializeEntries reg es).map .jobj
  | .vforeign t r =>
      match reg.typeSer t with
      | some f => some (.jobj (f (.vforeign t r)))
      | none => none

/-- Elementwise serialization of a sequence value. -/
def serializeList (reg : Registry) : List Value → Option (List Json)
  | [] => some []
  | v :: vs =>
      match serializeValue reg v, serializeList reg vs with
      | some j, some js => some (j :: js)
      | _, _ => none

/-- Entrywise serialization of a mapping value (keys pass through). -/
def serializeEntries (reg : Registry) : List (String × Value) → Option (List (String × Json))
  | [] => some []
  | (k, v) :: es =>
      match serializeValue reg v, serializeEntries reg es with
      | some j, some js => some ((k, j) :: js)
      | _, _ => none

end

mutual

/-- Modelled from the spec: deserialization of one mapping (spec section
4.2, deserialization algorithm steps 2 to 4): a mapping carrying the
marker key dispatches to the deserializer registered under that marker
(`UnknownSerdeMarkerError`, rendered as `none`, when the marker is
unregistered), and everything else is treated as a plain JSON value with
elementwise recursion. -/
def deserializeValue (reg : Registry) : Json → Option Value
  | .jnull => some .vnull
  | .jbool b => some (.vbool b)
  | .jint n => some (.vint n)
  | .jstr s => some (.vstr s)
  | .jarr xs => (deserializeList reg xs).map .vlist
  | .jobj es =>
      match lookupKey serdeKEY es with
      | some (.jstr m) =>
          match reg.typeDe m with
          | some g => g es
          | none => none
      | some _ => none
      | none => (deserializeEntries reg es).map .vdict

/-- Elementwise deserialization of a JSON array. -/
def deserializeList (reg : Registry) : List Json → Option (List Value)
  | [] => some []
  | j :: js =>
      match deserializeValue reg j, deserializeList reg js with
      | some v, some vs => some (v :: vs)
      | _, _ => none

/-- Entrywise deserialization of a plain (marker-free) JSON object. -/
def deserializeEntries (reg : Registry) : List (String × Json) → Option (List (String × Value))
  | [] => some []
  | (k, j) :: es =>
      match deserializeValue reg j, deserializeEntries reg es with
      | some v, some vs => some ((k, v) :: vs)
      | _, _ => none

end

mutual

/-- A value is marker-hazard-free when no plain mapping inside it uses
the reserved marker key as an ordinary key (such a mapping would be
misdispatched by the marker check on deserialization). -/
def hazardFree : Value → Bool
  | .vnull => true
  | .vbool _ => true
  | .vint _ => true
  | .vstr _ => true
  | .vlist xs => hazardFreeList xs
  | .vdict es => (lookupKey serdeKEY es).isNone && hazardFreeEntries es
  | .vforeign _ _ => true

/-- Marker-hazard freedom for every element of a sequence. -/
def hazardFreeList : List Value → Bool
  | [] => true
  | v :: vs => hazardFree v && hazardFreeList vs

/-- Marker-hazard freedom for every entry value of a mapping. -/
def hazardFreeEntries : List (String × Value) → Bool
  | [] => true
  | (_, v) :: es => hazardFree v && hazardFreeEntries es

end

/-- A foreign value of type `t` has a consistent registration in `reg`
when, if a type-level serializer is registered for `t`, its output
carries the marker key naming a registered deserializer that reconstructs
the original value (spec section 3: deserialization of that mapping using
the same registry must reconstruct a value equal to the original). -/
def foreignOk (reg : Registry) (t : String) (r : Value) : Prop :=
  ∀ f, reg.typeSer t = some f →
    ∃ m g, lookupKey serdeKEY (f (.vforeign t r)) = some (.jstr m) ∧
      reg.typeDe m = some g ∧ g (f (.vforeign t r)) = some (.vforeign t r)

mutual

/-- Every foreign value occurring inside a value has a consistent
type-level registration. -/
def AllForeignOk (reg : Registry) : Value → Prop
  | .vnull => True
  | .vbool _ => True
  | .vint _ => True
  | .vstr _ => True
  | .vlist xs => AllForeignOkList reg xs
  | .vdict es => AllForeignOkEntries reg es
  | .vforeign t r => foreignOk reg t r

/-- Registration consistency for every element of a sequence. -/
def AllForeignOkList (reg : Registry) : List Value → Prop
  | [] => True
  | v :: vs => AllForeignOk reg v ∧ AllForeignOkList reg vs

/-- Registration consistency for every entry value of a mapping. -/
def AllForeignOkEntries (reg : Registry) : List (String × Value) → Prop
  | [] => True
  | (_, v) :: es => AllForeignOk reg v ∧ AllForeignOkEntries reg es

end

/-- Serialization preserves the key list of a mapping entrywise. -/
theorem serializeEntries_keys (reg : Registry) :
    ∀ (es : List (String × Value)) (fs : List (String × Json)),
      serializeEntries reg es = some fs → fs.map Prod.fst = es.map Prod.fst := by
  intro es
  induction es with
  | nil =>
      intro fs h
      simp only [serializeEntries, Option.some_inj] at h
      subst h
      rfl
  | cons p rest ih =>
      intro fs h
      obtain ⟨k, v⟩ := p
      simp only [serializeEntries] at h
      rcases hj : serializeValue reg v with _ | j <;> rw [hj] at h
      · cases h
      rcases hjs : serializeEntries reg rest with _ | js <;> rw [hjs] at h
      · cases h
      simp only [Option.some_inj] at h
      subst h
      simp [ih js hjs]

/-- Lookup misses exactly when the key is absent from the key list. -/
theorem lookupKey_eq_none_iff {α : Type} (k : String) :
    ∀ (l : List (String × α)), lookupKey k l = none ↔ k ∉ l.map Prod.fst := by
  intro l
  induction l with
  | nil => simp [lookupKey]
  | cons p rest ih =>
      obtain ⟨k2, v⟩ := p
      by_cases hk : k2 = k
      · subst hk
        simp [lookupKey]
      · simp [lookupKey, hk, ih, Ne.symm hk]

/-- Elementwise round trip for sequences, given the round trip for each
element. -/
theorem roundtrip_list_of (reg : Registry) :
    ∀ (xs : List Value) (js : List Json),
      (∀ x, x ∈ xs → ∀ j, hazardFree x = true → AllForeignOk reg x →
        serializeValue reg x = some j → deserializeValue reg j = some x) →
      hazardFreeList xs = true → AllForeignOkList reg xs →
      serializeList reg xs = some js → deserializeList reg js = some xs := by
  intro xs
  induction xs with
  | nil =>
      intro js _ _ _ h
      simp only [serializeList, Option.some_inj] at h
      subst h
      rfl
  | cons v vs ih =>
      intro js ihp hh hf hs
      simp only [serializeList] at hs
      rcases hj : serializeValue reg v with _ | j <;> rw [hj] at hs
      · cases hs
      rcases hjs : serializeList reg vs with _ | js2 <;> rw [hjs] at hs
      · cases hs
      simp only [Option.some_inj] at hs
      subst hs
      simp only [hazardFreeList, Bool.and_eq_true] at hh
      simp only [AllForeignOkList] at hf
      have h1 := ihp v (List.mem_cons_self v vs) j hh.1 hf.1 hj
      have h2 := ih js2 (fun x hx => ihp x (List.mem_cons_of_mem v hx)) hh.2 hf.2 hjs
      simp [deserializeList, h1, h2]

/-- Entrywise round trip for plain mappings, given the round trip for
each entry value. -/
theorem roundtrip_entries_of (reg : Registry) :
    ∀ (es : List (String × Value)) (fs : List (String × Json)),
      (∀ k v, (k, v) ∈ es → ∀ j, hazardFree v = true → AllForeignOk reg v →
        serializeValue reg v = some j → deserializeValue reg j = some v) →
      hazardFreeEntries es = true → AllForeignOkEntries reg es →
      serializeEntries reg es = some fs → deserializeEntries reg fs = some es := by
  intro es
  induction es with
  | nil =>
      intro fs _ _ _ h
      simp only [serializeEntries, Option.some_inj] at h
      subst h
      rfl
  | cons p rest ih =>
      intro fs ihp hh hf hs
      obtain ⟨k, v⟩ := p
      simp only [serializeEntries] at hs
      rcases hj : serializeValue reg v with _ | j <;> rw [hj] at hs
      · cases hs
      rcases hjs : serializeEntries reg rest with _ | js2 <;> rw [hjs] at hs
      · cases hs
      simp only [Option.some_inj] at hs
      subst hs
      simp only [hazardFreeEntries, Bool.and_eq_true] at hh
      simp only [AllForeignOkEntries] at hf
      have h1 := ihp k v (List.mem_cons_self (k, v) rest) j hh.1 hf.1 hj
      have h2 := ih js2 (fun k2 v2 hx => ihp k2 v2 (List.mem_cons_of_mem (k, v) hx)) hh.2 hf.2 hjs
      simp [deserializeEntries, h1, h2]

/-- Round trip for a single value, by strong induction on size: a
marker-hazard-free value all of whose foreign constituents have
consistent registrations deserializes back from its serialization. -/
theorem roundtrip_value_size (reg : Registry) :
    ∀ (n : Nat) (v : Value) (j : Json), sizeOf v ≤ n →
      hazardFree v = true → AllForeignOk reg v →
      serializeValue reg v = some j → deserializeValue reg j = some v := by
  intro n
  induction n with
  | zero =>
      intro v j hsz
      exact absurd hsz (by cases v <;> simp)
  | succ n ih =>
      intro v j hsz hh hf hs
      cases v with
      | vnull =>
          simp only [serializeValue, Option.some_inj] at hs
          subst hs
          rfl
      | vbool b =>
          simp only [serializeValue, Option.some_inj] at hs
          subst hs
          rfl
      | vint n2 =>
          simp only [serializeValue, Option.some_inj] at hs
          subst hs
          rfl
      | vstr s =>
          simp only [serializeValue, Option.some_inj] at hs
          subst hs
          rfl
      | vforeign t r =>
          simp only [serializeValue] at hs
          rcases hreg : reg.typeSer t with _ | f <;> rw [hreg] at hs
          · cases hs
          simp only [Option.some_inj] at hs
          subst hs
          simp only [AllForeignOk] at hf
          obtain ⟨m, g, hm, hg, hgf⟩ := hf f hreg
          simp only [deserializeValue, hm, hg]
          exact hgf
      | vlist xs =>
          simp only [serializeValue] at hs
          rcases hjs : serializeList reg xs with _ | js <;> rw [hjs] at hs
          · cases hs
          simp only [Option.map_some', Option.some_inj] at hs
          subst hs
          simp only [hazardFree] at hh
          simp only [AllForeignOk] at hf
          have hsub : ∀ x, x ∈ xs → ∀ j2, hazardFree x = true → AllForeignOk reg x →
              serializeValue reg x = some j2 → deserializeValue reg j2 = some x := by
            intro x hx j2
            have hlt : sizeOf x < sizeOf xs := List.sizeOf_lt_of_mem hx
            have hb : sizeOf (Value.vlist xs) = 1 + sizeOf xs := by simp
            exact ih x j2 (by omega)
          have := roundtrip_list_of reg xs js hsub hh hf hjs
          simp [deserializeValue, this]
      | vdict es =>
          simp only [serializeValue] at hs
          rcases hfs : serializeEntries reg es with _ | fs <;> rw [hfs] at hs
          · cases hs
          simp only [Option.map_some', Option.some_inj] at hs
          subst hs
          simp only [hazardFree, Bool.and_eq_true, Option.isNone_iff_eq_none] at hh
          simp only [AllForeignOk] at hf
          have hkeys := serializeEntries_keys reg es fs hfs
          have hnomark : lookupKey serdeKEY fs = none := by
            rw [lookupKey_eq_none_iff, hkeys]
            rw [lookupKey_eq_none_iff] at hh
            exact hh.1
          have hsub : ∀ k v, (k, v) ∈ es → ∀ j2, hazardFree v = true → AllForeignOk reg v →
              serializeValue reg v = some j2 → deserializeValue reg j2 = some v := by
            intro k v hx j2
            have hlt : sizeOf (k, v) < sizeOf es := List.sizeOf_lt_of_mem hx
            have hb : sizeOf (Value.vdict es) = 1 + sizeOf es := by simp
            have hp : sizeOf v < sizeOf (k, v) := by simp
            exact ih v j2 (by omega)
          have := roundtrip_entries_of reg es fs hsub hh.2 hf hfs
          simp [deserializeValue, hnomark, this]

/-- Round trip for a single value: the size-free statement. -/
theorem roundtrip_value (reg : Registry) (v : Value) (j : Json)
    (hh : hazardFree v = true) (hf : AllForeignOk reg v)
    (hs : serializeValue reg v = some j) : deserializeValue reg j = some v :=
  roundtrip_value_size reg (sizeOf v) v j (Nat.le_refl _) hh hf hs

/-- Modelled from the spec: the immutable State container (spec section
3), not part of this repository snapshot.  Non-bookkeeping entries live
in `data` (an insertion-ordered mapping, as a Python dict); the two
reserved bookkeeping fields record the prior executed action name and the
monotonically increasing sequence id. -/
structure State where
  data : List (String × Value)
  priorStep : Option String
  sequenceId : Nat

/-- Modelled from the spec: `get_all()` returns a snapshot mapping of all
non-bookkeeping entries (spec section 4.1). -/
def State.get_all (s : State) : List (String × Value) := s.data

/-- Overwrite in place or insert at the end, the model of a single
Python dict key assignment. -/
def setKey {α : Type} : List (String × α) → String → α → List (String × α)
  | [], k, v => [(k, v)]
  | (k2, v2) :: rest, k, v =>
      if k2 = k then (k, v) :: rest else (k2, v2) :: setKey rest k v

/-- Apply a mapping of updates left to right. -/
def updateAll {α : Type} (d : List (String × α)) (m : List (String × α)) : List (String × α) :=
  m.foldl (fun d2 p => setKey d2 p.1 p.2) d

/-- Modelled from the spec: `update(mapping)` returns a new State with
the given keys overwritten or inserted and all other keys unchanged
(spec section 4.1); the bookkeeping fields are untouched. -/
def State.update (s : State) (m : List (String × Value)) : State :=
  { s with data := updateAll s.data m }

/-- Serialization of one state entry under key `k` (spec section 4.2,
step 1 versus steps 2 and 3): a registered field-level serializer takes
precedence and its raw mapping is emitted as the value, otherwise the
type-level/native algorithm applies.  Modelled from the spec. -/
def serializeEntryTop (reg : Registry) (k : String) (v : Value) : Option Json :=
  match reg.fieldSerde k with
  | some fd => some (.jobj (fd.1 v))
  | none => serializeValue reg v

/-- Serialization of the non-bookkeeping entries of a State in order. -/
def serializeEntriesTop (reg : Registry) : List (String × Value) → Option (List (String × Json))
  | [] => some []
  | (k, v) :: rest =>
      match serializeEntryTop reg k v, serializeEntriesTop reg rest with
      | some j, some js => some ((k, j) :: js)
      | _, _ => none

/-- Bookkeeping encoding of the prior action name: a string or null. -/
def priorStepJson : Option String → Json
  | none => .jnull
  | some a => .jstr a

/-- Modelled from the spec: `State.serialize()` produces a single
JSON-compatible mapping holding every serialized non-bookkeeping entry
plus the two bookkeeping keys (spec section 6; the notebook shows both
literal keys in the serialized output). -/
def serializeState (reg : Registry) (s : State) : Option (List (String × Json)) :=
  (serializeEntriesTop reg s.data).map fun es =>
    es ++ [(priorStepKEY, priorStepJson s.priorStep),
           (sequenceIdKEY, .jint (Int.ofNat s.sequenceId))]

/-- Deserialization of one state entry under key `k` (spec section 4.2,
deserialization step 1 versus steps 2 and 3): a registered field-level
deserializer is dispatched by field name directly on the mapping,
otherwise the marker/native algorithm applies.  Modelled from the
spec. -/
def deserializeEntryTop (reg : Registry) (k : String) (j : Json) : Option Value :=
  match reg.fieldSerde k with
  | some fd =>
      match j with
      | .jobj es => fd.2 es
      | _ => none
  | none => deserializeValue reg j

/-- Worker of `State.deserialize`: folds the serialized mapping entry by
entry, reinstating the two bookkeeping keys and deserializing every other
entry.  Modelled from the spec. -/
def deserializeStateGo (reg : Registry) : List (String × Json) → State → Option State
  | [], acc => some acc
  | (k, j) :: rest, acc =>
      if k = priorStepKEY then
        match j with
        | .jnull => deserializeStateGo reg rest { acc with priorStep := none }
        | .jstr a => deserializeStateGo reg rest { acc with priorStep := some a }
        | _ => none
      else if k = sequenceIdKEY then
        match j with
        | .jint n => deserializeStateGo reg rest { acc with sequenceId := n.toNat }
        | _ => none
      else
        match deserializeEntryTop reg k j with
        | some v => deserializeStateGo reg rest { acc with data := acc.data ++ [(k, v)] }
        | none => none

/-- Modelled from the spec: `State.deserialize(mapping)` rebuilds a State
from a serialized mapping using the same registry. -/
def deserializeState (reg : Registry) (m : List (String × Json)) : Option State :=
  deserializeStateGo reg m { data := [], priorStep := none, sequenceId := 0 }

/-- Per-entry consistent-registration condition for a state entry: a
registered field-level pair must reconstruct the stored value, and
otherwise the type-level algorithm must apply to a marker-hazard-free
value whose foreign constituents have consistent registrations. -/
def entrySerdeOk (reg : Registry) (k : String) (v : Value) : Prop :=
  match reg.fieldSerde k with
  | some fd => fd.2 (fd.1 v) = some v
  | none => hazardFree v = true ∧ AllForeignOk reg v

/-- Statewide consistent-registration condition: every stored entry uses
a non-reserved key and satisfies the per-entry condition. -/
def StateSerdeOk (reg : Registry) (s : State) : Prop :=
  ∀ k v, (k, v) ∈ s.data → k ≠ priorStepKEY ∧ k ≠ sequenceIdKEY ∧ entrySerdeOk reg k v

/-- Round trip for one state entry. -/
theorem roundtrip_entryTop (reg : Registry) (k : String) (v : Value) (j : Json)
    (hok : entrySerdeOk reg k v) (hs : serializeEntryTop reg k v = some j) :
    deserializeEntryTop reg k j = some v := by
  simp only [entrySerdeOk] at hok
  simp only [serializeEntryTop] at hs
  simp only [deserializeEntryTop]
  rcases hfd : reg.fieldSerde k with _ | fd <;> rw [hfd] at hok hs
  · exact roundtrip_value reg v j hok.1 hok.2 hs
  · simp only [Option.some_inj] at hs
    subst hs
    exact hok

/-- The state fold distributes over list append. -/
theorem deserializeStateGo_append (reg : Registry) :
    ∀ (xs ys : List (String × Json)) (acc : State),
      deserializeStateGo reg (xs ++ ys) acc =
        (deserializeStateGo reg xs acc).bind (fun st => deserializeStateGo reg ys st) := by
  intro xs
  induction xs with
  | nil => intro ys acc; simp [deserializeStateGo]
  | cons p rest ih =>
      intro ys acc
      obtain ⟨k, j⟩ := p
      simp only [List.cons_append, deserializeStateGo]
      by_cases h1 : k = priorStepKEY
      · simp only [h1, if_true]
        cases j <;> simp [ih]
      · by_cases h2 : k = sequenceIdKEY
        · have hne : sequenceIdKEY ≠ priorStepKEY := by decide
          simp only [h1, h2, if_false]
          cases j <;> simp [ih, hne]
        · simp only [h1, h2, if_false]
          rcases deserializeEntryTop reg k j with _ | v <;> simp [ih]

/-- Folding the serialized non-bookkeeping entries rebuilds exactly the
original data entries, in order, after any accumulator. -/
theorem deserializeStateGo_data (reg : Registry) :
    ∀ (ds : List (String × Value)) (fs : List (String × Json)) (acc : State),
      (∀ k v, (k, v) ∈ ds → k ≠ priorStepKEY ∧ k ≠ sequenceIdKEY ∧ entrySerdeOk reg k v) →
      serializeEntriesTop reg ds = some fs →
      deserializeStateGo reg fs acc = some { acc with data := acc.data ++ ds } := by
  intro ds
  induction ds with
  | nil =>
      intro fs acc _ h
      simp only [serializeEntriesTop, Option.some_inj] at h
      subst h
      simp [deserializeStateGo]
  | cons p rest ih =>
      intro fs acc hok hs
      obtain ⟨k, v⟩ := p
      obtain ⟨hk1, hk2, hek⟩ := hok k v (List.mem_cons_self (k, v) rest)
      simp only [serializeEntriesTop] at hs
      rcases hj : serializeEntryTop reg k v with _ | j <;> rw [hj] at hs
      · cases hs
      rcases hjs : serializeEntriesTop reg rest with _ | js <;> rw [hjs] at hs
      · cases hs
      simp only [Option.some_inj] at hs
      subst hs
      simp only [deserializeStateGo, hk1, hk2, if_false,
        roundtrip_entryTop reg k v j hek hj]
      have hrec := ih js { acc with data := acc.data ++ [(k, v)] }
        (fun k2 v2 hx => hok k2 v2 (List.mem_cons_of_mem (k, v) hx)) hjs
      simp only [hrec]
      simp

/-- Folding the two bookkeeping entries reinstates the prior step and the
sequence id. -/
theorem deserializeStateGo_bookkeeping (reg : Registry) (p : Option String) (q : Nat)
    (acc : State) :
    deserializeStateGo reg
      [(priorStepKEY, priorStepJson p), (sequenceIdKEY, .jint (Int.ofNat q))] acc =
      some { acc with priorStep := p, sequenceId := q } := by
  have hne : sequenceIdKEY ≠ priorStepKEY := by decide
  cases p <;> simp [deserializeStateGo, priorStepJson, hne]

/-- Round trip of a whole State: under consistent registrations on the
stored entries, deserializing the serialized mapping rebuilds the exact
State, data entries in order and bookkeeping reinstated. -/
theorem roundtrip_state (reg : Registry) (s : State) (m : List (String × Json))
    (hok : StateSerdeOk reg s) (hs : serializeState reg s = some m) :
    deserializeState reg m = some s := by
  simp only [serializeState] at hs
  rcases hfs : serializeEntriesTop reg s.data with _ | fs <;> rw [hfs] at hs
  · cases hs
  simp only [Option.map_some', Option.some_inj] at hs
  subst hs
  unfold deserializeState
  rw [deserializeStateGo_append]
  rw [deserializeStateGo_data reg s.data fs _ hok hfs]
  simp only [Option.some_bind, List.nil_append]
  rw [deserializeStateGo_bookkeeping]

/-- Looking up the key just set finds the new value. -/
theorem lookupKey_setKey_self {α : Type} :
    ∀ (d : List (String × α)) (k : String) (v : α),
      lookupKey k (setKey d k v) = some v := by
  intro d
  induction d with
  | nil => intro k v; simp [setKey, lookupKey]
  | cons p rest ih =>
      intro k v
      obtain ⟨k2, v2⟩ := p
      by_cases h : k2 = k
      · simp [setKey, h, lookupKey]
      · simp [setKey, h, lookupKey, ih]

/-- Setting one key leaves lookups of other keys unchanged. -/
theorem lookupKey_setKey_other {α : Type} :
    ∀ (d : List (String × α)) (k k2 : String) (v : α), k2 ≠ k →
      lookupKey k2 (setKey d k v) = lookupKey k2 d := by
  intro d
  induction d with
  | nil =>
      intro k k2 v h
      have : k ≠ k2 := fun hh => h hh.symm
      simp [setKey, lookupKey, this]
  | cons p rest ih =>
      intro k k2 v h
      obtain ⟨k3, v3⟩ := p
      by_cases h3 : k3 = k
      · subst h3
        have : k3 ≠ k2 := fun hh => h hh.symm
        simp [setKey, lookupKey, this]
      · simp [setKey, h3, lookupKey, ih k k2 v h]

/-- Applying an update mapping leaves absent keys alone. -/
theorem lookupKey_updateAll_not_mem {α : Type} :
    ∀ (m d : List (String × α)) (k : String), k ∉ m.map Prod.fst →
      lookupKey k (updateAll d m) = lookupKey k d := by
  intro m
  induction m with
  | nil => intro d k _; rfl
  | cons p rest ih =>
      intro d k hk
      obtain ⟨k1, v1⟩ := p
      simp only [List.map_cons, List.mem_cons, not_or] at hk
      have hstep : updateAll d ((k1, v1) :: rest) = updateAll (setKey d k1 v1) rest := rfl
      rw [hstep, ih (setKey d k1 v1) k hk.2, lookupKey_setKey_other d k1 k v1 hk.1]

/-- Applying an update mapping with distinct keys stores each given
value. -/
theorem lookupKey_updateAll_mem {α : Type} :
    ∀ (m d : List (String × α)) (k : String) (v : α),
      (m.map Prod.fst).Nodup → (k, v) ∈ m →
      lookupKey k (updateAll d m) = some v := by
  intro m
  induction m with
  | nil => intro d k v _ h; cases h
  | cons p rest ih =>
      intro d k v hnd hm
      obtain ⟨k1, v1⟩ := p
      have hstep : updateAll d ((k1, v1) :: rest) = updateAll (setKey d k1 v1) rest := rfl
      simp only [List.map_cons, List.nodup_cons] at hnd
      rcases List.mem_cons.mp hm with heq | hrest
      · have hk : k = k1 := congrArg Prod.fst heq
        have hv : v = v1 := congrArg Prod.snd heq
        subst hk
        subst hv
        rw [hstep, lookupKey_updateAll_not_mem rest (setKey d k v) k hnd.1]
        exact lookupKey_setKey_self d k v
      · exact hstep ▸ ih (setKey d k1 v1) k v hnd.2 hrest

/-- Whether a character list contains two consecutive equal signs, the
substring the notebook codec uses as its separator. -/
def containsEqEq : List Char → Bool
  | [] => false
  | [_] => false
  | a :: b :: rest => (a == '=' && b == '=') || containsEqEq (b :: rest)

/-- Python str.split on the two-character separator of two equal signs:
leftmost, non-overlapping occurrences delimit the chunks. -/
def splitOnEqEq : List Char → List (List Char)
  | [] => [[]]
  | [c] => [[c]]
  | a :: b :: rest =>
      if a == '=' && b == '=' then [] :: splitOnEqEq rest
      else
        match splitOnEqEq (b :: rest) with
        | [] => [[a]]
        | h :: t => (a :: h) :: t

/-- Splitting always yields at least one chunk. -/
theorem splitOnEqEq_ne_nil : ∀ l, splitOnEqEq l ≠ [] := by
  intro l
  induction l using splitOnEqEq.induct <;> simp [splitOnEqEq] <;> split <;> simp_all

/-- A separator-free list splits into the single chunk holding it all. -/
theorem noEqEq_split : ∀ l, containsEqEq l = false → splitOnEqEq l = [l] := by
  intro l
  induction l using splitOnEqEq.induct with
  | case1 => intro; rfl
  | case2 c => intro; rfl
  | case3 a b rest hab ih =>
      intro h
      simp [containsEqEq, hab] at h
  | case4 a b rest hab hnil ih =>
      intro h
      simp only [containsEqEq, Bool.or_eq_false_iff] at h
      exact absurd (ih h.2) (by simp [hnil])
  | case5 a b rest hab hd tl heq ih =>
      intro h
      simp only [containsEqEq, Bool.or_eq_false_iff] at h
      have h2 := ih h.2
      rw [heq] at h2
      simp only [splitOnEqEq, if_neg (by simp [hab] : ¬(a == '=' && b == '=') = true), heq]
      cases h2
      rfl

/-- If the separator occurs in `v`, the first chunk of splitting `v ++ w`
is at least two characters shorter than `v`. -/
theorem firstChunk_short : ∀ (v w : List Char), containsEqEq v = true →
    ((splitOnEqEq (v ++ w)).headD []).length + 2 ≤ v.length := by
  intro v
  induction v using containsEqEq.induct with
  | case1 => intro w h; cases h
  | case2 c => intro w h; cases h
  | case3 a b rest ih =>
      intro w h
      simp only [List.cons_append]
      by_cases hab : (a == '=' && b == '=') = true
      · have heq : splitOnEqEq (a :: b :: (rest ++ w)) = [] :: splitOnEqEq (rest ++ w) := by
          rw [splitOnEqEq]
          simp [hab]
        rw [heq]
        simp only [List.headD_cons, List.length_nil, List.length_cons]
        omega
      · have h2 : containsEqEq (b :: rest) = true := by
          simp only [containsEqEq, Bool.or_eq_true] at h
          rcases h with h | h
          · exact absurd h hab
          · exact h
        have ihw := ih w h2
        simp only [List.cons_append] at ihw
        rcases hsp : splitOnEqEq (b :: (rest ++ w)) with _ | ⟨hd, tl⟩
        · exact absurd hsp (splitOnEqEq_ne_nil _)
        · have heq : splitOnEqEq (a :: b :: (rest ++ w)) = (a :: hd) :: tl := by
            rw [splitOnEqEq]
            simp only [hab, if_false, Bool.false_eq_true, hsp]
          rw [heq]
          rw [hsp] at ihw
          simp only [List.headD_cons, List.length_cons] at ihw ⊢
          omega

/-- Appending a single non-separator character preserves separator
freedom. -/
theorem noEqEq_append_single : ∀ (v : List Char) (c : Char),
    containsEqEq v = false → (c == '=') = false → containsEqEq (v ++ [c]) = false := by
  intro v
  induction v using containsEqEq.induct with
  | case1 => intro c _ _; rfl
  | case2 a =>
      intro c _ hc
      simp [containsEqEq, hc]
  | case3 a b rest ih =>
      intro c h hc
      simp only [containsEqEq, Bool.or_eq_false_iff] at h
      simp only [List.cons_append, containsEqEq, Bool.or_eq_false_iff]
      exact ⟨h.1, by simpa using ih c h.2 hc⟩

/-- A list containing the separator has at least two characters. -/
theorem containsEqEq_length : ∀ (v : List Char), containsEqEq v = true → 2 ≤ v.length := by
  intro v
  induction v using containsEqEq.induct with
  | case1 => intro h; cases h
  | case2 a => intro h; cases h
  | case3 a b rest ih => intro _; simp only [List.length_cons]; omega

/-- The custom class of the notebook: a wrapper around one value, equal
when the wrapped values are equal; the notebook stores a string in it, so
the value is modelled as a character list. -/
structure CustomClass where
  value : List Char
  deriving DecidableEq

/-- The serialized form produced by the notebook type-level serializer: a
mapping holding the serde marker entry and the encoded value entry. -/
structure CCSerialized where
  serdeKey : String
  value : List Char
  deriving DecidableEq

/-- Translated from the notebook: `serialize_customclass` returns the
mapping of `serde.KEY` to the marker "CustomClass" and of "value" to the
f-string bracket encoding of the wrapped value. -/
def serialize_customclass (c : CustomClass) : CCSerialized :=
  ⟨"CustomClass", '[' :: 'v' :: 'a' :: 'l' :: 'u' :: 'e' :: '=' :: '=' :: (c.value ++ (']' :: []))⟩

/-- Translated from the notebook: `deserialize_customclass` splits the
encoded "value" entry on the two-equals separator, takes element 1 and
drops the final character (Python slicing 0 to -1); a missing element 1
is a Python IndexError, rendered as `none`. -/
def deserialize_customclass (p : CCSerialized) : Option CustomClass :=
  match (splitOnEqEq p.value).get? 1 with
  | some s => some ⟨s.dropLast⟩
  | none => none

/-- Splitting the bracket encoding peels off the header chunk. -/
theorem splitOnEqEq_header (rest : List Char) :
    splitOnEqEq ('[' :: 'v' :: 'a' :: 'l' :: 'u' :: 'e' :: '=' :: '=' :: rest) =
      ('[' :: 'v' :: 'a' :: 'l' :: 'u' :: 'e' :: []) :: splitOnEqEq rest := by
  rcases hsp : splitOnEqEq rest with _ | ⟨hd, tl⟩
  · exact absurd hsp (splitOnEqEq_ne_nil _)
  · simp [splitOnEqEq, hsp]

/-- The notebook codec round trips on any value free of the separator. -/
theorem cc_roundtrip_of_no_sep (c : CustomClass) (h : containsEqEq c.value = false) :
    deserialize_customclass (serialize_customclass c) = some c := by
  unfold serialize_customclass deserialize_customclass
  simp only [splitOnEqEq_header]
  have h2 : containsEqEq (c.value ++ (']' :: [])) = false :=
    noEqEq_append_single c.value ']' h (by decide)
  rw [noEqEq_split _ h2]
  simp

/-- The notebook codec loses information on any value containing the
separator: the decoded value is strictly shorter than the original. -/
theorem cc_roundtrip_fails_of_sep (c : CustomClass) (h : containsEqEq c.value = true) :
    deserialize_customclass (serialize_customclass c) ≠ some c := by
  unfold serialize_customclass deserialize_customclass
  simp only [splitOnEqEq_header]
  rcases hsp : splitOnEqEq (c.value ++ (']' :: [])) with _ | ⟨hd, tl⟩
  · exact absurd hsp (splitOnEqEq_ne_nil _)
  · have hlen := firstChunk_short c.value (']' :: []) h
    rw [hsp] at hlen
    simp only [List.headD_cons] at hlen
    have hcv := containsEqEq_length c.value h
    simp only [List.get?]
    intro hcon
    have hvv : hd.dropLast = c.value := congrArg CustomClass.value (Option.some.inj hcon)
    have hdl : hd.dropLast.length = hd.length - 1 := List.length_dropLast hd
    rw [hvv] at hdl
    omega

/-- Modelled from the spec: an Action (spec section 3), a named unit of
computation with declared reads and writes and both a synchronous and an
asynchronous computation capability.  A raised exception in the user
computation is rendered as `none`. -/
structure Action where
  name : String
  reads : List String
  writes : List String
  run : List (String × Value) → State → Option (List (String × Value) × State)
  runAsync : List (String × Value) → State → Option (List (String × Value) × State)

/-- Modelled from the spec: a Condition, a boolean predicate over State
gating a transition (spec section 3); the notebook uses
`expr("dict['foo'] == 0")`, an expression over state. -/
structure Condition where
  eval : State → Bool

/-- Modelled from the spec: a Transition, a directed edge with an
optional Condition; `none` is the unconditional default edge. -/
structure Transition where
  source : String
  dest : String
  cond : Option Condition

/-- Modelled from the spec: a Graph of actions, ordered transitions, and
the entrypoint action name. -/
structure Graph where
  actions : List Action
  transitions : List Transition
  entrypoint : String

/-- Modelled from the spec: an Application holding a Graph and the
current State; the cursor (last executed action) is the bookkeeping
prior-step field of the State. -/
structure Application where
  graph : Graph
  currentState : State

/-- Modelled from the spec: transition resolution (spec section 4.3):
scan the transitions whose source is the current action in registered
order and return the destination of the first whose condition holds, an
unconditional edge always matching; `none` when nothing matches. -/
def resolveNext (ts : List Transition) (cur : String) (s : State) : Option String :=
  match ts with
  | [] => none
  | t :: rest =>
      if t.source = cur then
        match t.cond with
        | some c => if c.eval s then some t.dest else resolveNext rest cur s
        | none => some t.dest
      else resolveNext rest cur s

/-- Find an action of the graph by name. -/
def findAction (g : Graph) (nm : String) : Option Action :=
  g.actions.find? (fun a => a.name == nm)

/-- The name of the next action to execute: the entrypoint when nothing
has run yet, otherwise the resolved transition from the prior action. -/
def nextActionName (app : Application) : Option String :=
  match app.currentState.priorStep with
  | none => some app.graph.entrypoint
  | some prev => resolveNext app.graph.transitions prev app.currentState

/-- Outcome of a single step: stalled without a resolvable next action
(a non-fatal status, not an error), failed because the action raised, or
a completed step carrying the action, its result and the committed new
State. -/
inductive StepOutcome where
  | stalled
  | failed
  | ok (a : Action) (r : List (String × Value)) (s : State)

/-- Commit a successful step: record the executed action as prior step
and advance the sequence id by exactly one. -/
def commitState (s : State) (aname : String) (prevSeq : Nat) : State :=
  { s with priorStep := some aname, sequenceId := prevSeq + 1 }

/-- Modelled from the spec: `step` (spec section 4.4) resolves the next
action, executes it with the supplied inputs, and on success commits the
cursor advance and sequence-id increment; on a stall or an action
failure the Application state is left unchanged. -/
def step (app : Application) (inputs : List (String × Value)) : StepOutcome × Application :=
  match nextActionName app with
  | none => (.stalled, app)
  | some nm =>
      match findAction app.graph nm with
      | none => (.stalled, app)
      | some a =>
          match a.run inputs app.currentState with
          | none => (.failed, app)
          | some (r, s2) =>
              let s3 := commitState s2 a.name app.currentState.sequenceId
              (.ok a r s3, { app with currentState := s3 })

/-- Modelled from the spec: `astep`, the asynchronous variant of `step`,
identical except that it awaits the asynchronous capability of the
action. -/
def astep (app : Application) (inputs : List (String × Value)) : StepOutcome × Application :=
  match nextActionName app with
  | none => (.stalled, app)
  | some nm =>
      match findAction app.graph nm with
      | none => (.stalled, app)
      | some a =>
          match a.runAsync inputs app.currentState with
          | none => (.failed, app)
          | some (r, s2) =>
              let s3 := commitState s2 a.name app.currentState.sequenceId
              (.ok a r s3, { app with currentState := s3 })

/-- How an iteration ended: paused before a halt-before action (which has
not run), paused after a halt-after action (with its result and the
committed state), stalled with no resolvable transition (a warning-level
status, not an error), aborted by an action failure, or out of fuel. -/
inductive IterOutcome where
  | haltedBefore (a : Action) (s : State)
  | haltedAfter (a : Action) (r : List (String × Value)) (s : State)
  | stalledEnd (s : State)
  | failedRun
  | outOfFuel (app : Application)

/-- Modelled from the spec: `iterate` (spec section 4.4 and the
Applications page): run step after step, yielding a (action, result,
state) triple per step, injecting the inputs only on the first step;
before executing an action listed in halt-before, pause yielding that
action with result `None` and the unchanged state; after executing an
action listed in halt-after, pause yielding it with its result and the
committed state; stop with a stalled status when no transition
resolves.  The fuel bounds the unbounded generator. -/
def iterate (fuel : Nat) (app : Application) (haltBefore haltAfter : List String)
    (inputs : List (String × Value)) :
    List (Action × Option (List (String × Value)) × State) × IterOutcome :=
  match fuel with
  | 0 => ([], .outOfFuel app)
  | fuel + 1 =>
      match nextActionName app with
      | none => ([], .stalledEnd app.currentState)
      | some nm =>
          match findAction app.graph nm with
          | none => ([], .stalledEnd app.currentState)
          | some a =>
              if haltBefore.contains a.name then
                ([(a, none, app.currentState)], .haltedBefore a app.currentState)
              else
                match a.run inputs app.currentState with
                | none => ([], .failedRun)
                | some (r, s2) =>
                    let s3 := commitState s2 a.name app.currentState.sequenceId
                    let app2 := { app with currentState := s3 }
                    if haltAfter.contains a.name then
                      ([(a, some r, s3)], .haltedAfter a r s3)
                    else
                      let next := iterate fuel app2 haltBefore haltAfter []
                      ((a, some r, s3) :: next.1, next.2)

/-- Modelled from the spec: `aiterate`, the asynchronous variant of
`iterate`, identical except that it awaits the asynchronous capability of
each action. -/
def aiterate (fuel : Nat) (app : Application) (haltBefore haltAfter : List String)
    (inputs : List (String × Value)) :
    List (Action × Option (List (String × Value)) × State) × IterOutcome :=
  match fuel with
  | 0 => ([], .outOfFuel app)
  | fuel + 1 =>
      match nextActionName app with
      | none => ([], .stalledEnd app.currentState)
      | some nm =>
          match findAction app.graph nm with
          | none => ([], .stalledEnd app.currentState)
          | some a =>
              if haltBefore.contains a.name then
                ([(a, none, app.currentState)], .haltedBefore a app.currentState)
              else
                match a.runAsync inputs app.currentState with
                | none => ([], .failedRun)
                | some (r, s2) =>
                    let s3 := commitState s2 a.name app.currentState.sequenceId
                    let app2 := { app with currentState := s3 }
                    if haltAfter.contains a.name then
                      ([(a, some r, s3)], .haltedAfter a r s3)
                    else
                      let next := aiterate fuel app2 haltBefore haltAfter []
                      ((a, some r, s3) :: next.1, next.2)

/-- Modelled from the spec: `run` drains `iterate` and returns only its
final halting outcome (the Applications page: run just calls out to
iterate and returns the final value). -/
def runDrain (fuel : Nat) (app : Application) (haltBefore haltAfter : List String)
    (inputs : List (String × Value)) : IterOutcome :=
  (iterate fuel app haltBefore haltAfter inputs).2

/-- Modelled from the spec: `arun`, the asynchronous variant of `run`. -/
def arunDrain (fuel : Nat) (app : Application) (haltBefore haltAfter : List String)
    (inputs : List (String × Value)) : IterOutcome :=
  (aiterate fuel app haltBefore haltAfter inputs).2


/-- Whatever way an iteration halts, the halting action is always drawn
from the corresponding halt list: a halted-after action is in the
halt-after list and a halted-before action is in the halt-before list. -/
theorem iterate_halt_names :
    ∀ (fuel : Nat) (app : Application) (hb ha : List String)
      (inputs : List (String × Value))
      (tr : List (Action × Option (List (String × Value)) × State)) (out : IterOutcome),
      iterate fuel app hb ha inputs = (tr, out) →
      (∀ a r s, out = .haltedAfter a r s → ha.contains a.name = true) ∧
      (∀ a s, out = .haltedBefore a s → hb.contains a.name = true) := by
  intro fuel
  induction fuel with
  | zero =>
      intro app hb ha inputs tr out h
      simp only [iterate, Prod.mk.injEq] at h
      constructor
      · intro a r s heq
        rw [← h.2] at heq
        cases heq
      · intro a s heq
        rw [← h.2] at heq
        cases heq
  | succ fuel ih =>
      intro app hb ha inputs tr out h
      simp only [iterate] at h
      rcases hn : nextActionName app with _ | nm <;> simp only [hn] at h
      · simp only [Prod.mk.injEq] at h
        constructor
        · intro a r s heq
          rw [← h.2] at heq
          cases heq
        · intro a s heq
          rw [← h.2] at heq
          cases heq
      rcases hf : findAction app.graph nm with _ | a0 <;> simp only [hf] at h
      · simp only [Prod.mk.injEq] at h
        constructor
        · intro a r s heq
          rw [← h.2] at heq
          cases heq
        · intro a s heq
          rw [← h.2] at heq
          cases heq
      by_cases hhb : hb.contains a0.name = true
      · simp only [hhb, if_true, Prod.mk.injEq] at h
        constructor
        · intro a r s heq
          rw [← h.2] at heq
          cases heq
        · intro a s heq
          rw [← h.2] at heq
          cases heq
          exact hhb
      · simp only [hhb, if_false, Bool.false_eq_true] at h
        rcases hr : a0.run inputs app.currentState with _ | rs <;> simp only [hr] at h
        · simp only [Prod.mk.injEq] at h
          constructor
          · intro a r s heq
            rw [← h.2] at heq
            cases heq
          · intro a s heq
            rw [← h.2] at heq
            cases heq
        obtain ⟨r0, s0⟩ := rs
        by_cases hha : ha.contains a0.name = true
        · simp only [hha, if_true, Prod.mk.injEq] at h
          constructor
          · intro a r s heq
            rw [← h.2] at heq
            cases heq
            exact hha
          · intro a s heq
            rw [← h.2] at heq
            cases heq
        · simp only [hha, if_false, Bool.false_eq_true, Prod.mk.injEq] at h
          have hrec := ih { app with currentState := commitState s0 a0.name app.currentState.sequenceId }
            hb ha []
            (iterate fuel { app with currentState := commitState s0 a0.name app.currentState.sequenceId } hb ha []).1
            (iterate fuel { app with currentState := commitState s0 a0.name app.currentState.sequenceId } hb ha []).2
            rfl
          constructor
          · intro a r s heq
            exact hrec.1 a r s (h.2 ▸ heq)
          · intro a s heq
            exact hrec.2 a s (h.2 ▸ heq)

/-- C2: when the about-to-run action is X, iterate with halt-after [X]
executes X and stops immediately, yielding X with its result and the
committed post-X State; iterate with halt-before [X] stops with X not
yet executed, yielding X with result none and the unchanged State; and
in any run with these halt lists, a halted-after or halted-before
outcome always names X as the halting action. -/
theorem iterate_halt_contract (fuel : Nat) (app : Application)
    (inputs : List (String × Value)) (X : String) (a : Action)
    (hnm : nextActionName app = some X)
    (hfind : findAction app.graph X = some a) :
    (∀ r s2, a.run inputs app.currentState = some (r, s2) →
      iterate (fuel + 1) app [] [X] inputs =
        ([(a, some r, commitState s2 a.name app.currentState.sequenceId)],
          .haltedAfter a r (commitState s2 a.name app.currentState.sequenceId))) ∧
    (iterate (fuel + 1) app [X] [] inputs =
      ([(a, none, app.currentState)], .haltedBefore a app.currentState)) ∧
    (∀ fuel2 tr a2 r2 s2, iterate fuel2 app [] [X] inputs = (tr, .haltedAfter a2 r2 s2) →
      a2.name = X) ∧
    (∀ fuel2 tr a2 s2, iterate fuel2 app [X] [] inputs = (tr, .haltedBefore a2 s2) →
      a2.name = X) := by
  have hf2 : List.find? (fun b => b.name == X) app.graph.actions = some a := hfind
  have hname : a.name = X := by simpa using List.find?_some hf2
  refine ⟨?_, ?_, ?_, ?_⟩
  · intro r s2 hr
    simp only [iterate, hnm, hfind, hr]
    simp [hname]
  · simp only [iterate, hnm, hfind]
    simp [hname]
  · intro fuel2 tr a2 r2 s2 hit
    have := (iterate_halt_names fuel2 app [] [X] inputs tr (.haltedAfter a2 r2 s2) hit).1
      a2 r2 s2 rfl
    simpa using this
  · intro fuel2 tr a2 s2 hit
    have := (iterate_halt_names fuel2 app [X] [] inputs tr (.haltedBefore a2 s2) hit).2
      a2 s2 rfl
    simpa using this

/-- C3: a successfully committed step advances the sequence id by exactly
one (and stores the committed state), while a stalled or failed step
leaves the Application, hence its sequence id, unchanged. -/
theorem step_sequence_id (app : Application) (inputs : List (String × Value)) :
    (∀ a r s2 app2, step app inputs = (.ok a r s2, app2) →
        app2.currentState.sequenceId = app.currentState.sequenceId + 1 ∧
        app2.currentState = s2) ∧
    (∀ app2, step app inputs = (.stalled, app2) → app2 = app) ∧
    (∀ app2, step app inputs = (.failed, app2) → app2 = app) := by
  refine ⟨?_, ?_, ?_⟩
  · intro a r s2 app2 h
    simp only [step] at h
    rcases hn : nextActionName app with _ | nm <;> simp only [hn] at h
    · simp at h
    rcases hf : findAction app.graph nm with _ | a0 <;> simp only [hf] at h
    · simp at h
    rcases hr : a0.run inputs app.currentState with _ | rs <;> simp only [hr] at h
    · simp at h
    obtain ⟨r0, s0⟩ := rs
    simp only [Prod.mk.injEq, StepOutcome.ok.injEq] at h
    obtain ⟨⟨ha0, hr0, hs0⟩, happ⟩ := h
    subst happ
    subst hs0
    simp [commitState]
  · intro app2 h
    simp only [step] at h
    rcases hn : nextActionName app with _ | nm <;> simp only [hn] at h
    · simp only [Prod.mk.injEq] at h
      exact h.2.symm
    rcases hf : findAction app.graph nm with _ | a0 <;> simp only [hf] at h
    · simp only [Prod.mk.injEq] at h
      exact h.2.symm
    rcases hr : a0.run inputs app.currentState with _ | rs <;> simp only [hr] at h
    · simp at h
    obtain ⟨r0, s0⟩ := rs
    simp at h
  · intro app2 h
    simp only [step] at h
    rcases hn : nextActionName app with _ | nm <;> simp only [hn] at h
    · simp at h
    rcases hf : findAction app.graph nm with _ | a0 <;> simp only [hf] at h
    · simp at h
    rcases hr : a0.run inputs app.currentState with _ | rs <;> simp only [hr] at h
    · simp only [Prod.mk.injEq] at h
      exact h.2.symm
    obtain ⟨r0, s0⟩ := rs
    simp at h

/-- No transition from the current action matching means resolution
returns no next action. -/
theorem resolveNext_none (s : State) (cur : String) :
    ∀ ts : List Transition, (∀ t, t ∈ ts → t.source = cur →
      ∃ c, t.cond = some c ∧ c.eval s = false) → resolveNext ts cur s = none := by
  intro ts
  induction ts with
  | nil => intro; rfl
  | cons t rest ih =>
      intro h
      simp only [resolveNext]
      by_cases hsrc : t.source = cur
      · obtain ⟨c, hc, hev⟩ := h t (List.mem_cons_self t rest) hsrc
        simp [hsrc, hc, hev, ih (fun t2 ht2 => h t2 (List.mem_cons_of_mem t ht2))]
      · simp [hsrc, ih (fun t2 ht2 => h t2 (List.mem_cons_of_mem t ht2))]

/-- C6: when every outgoing transition of the prior action has a false
condition and there is no unconditional fallback, transition resolution
returns no next action and both step and iterate report the stalled
status as an ordinary returned value with the Application unchanged
(`step` and `iterate` are total functions here, so stalling is
observable output, never a raised error). -/
theorem stalled_is_status (fuel : Nat) (app : Application)
    (inputs : List (String × Value)) (haltBefore haltAfter : List String) (prev : String)
    (hprev : app.currentState.priorStep = some prev)
    (hnotrans : ∀ t, t ∈ app.graph.transitions → t.source = prev →
      ∃ c, t.cond = some c ∧ c.eval app.currentState = false) :
    resolveNext app.graph.transitions prev app.currentState = none ∧
    step app inputs = (.stalled, app) ∧
    iterate (fuel + 1) app haltBefore haltAfter inputs = ([], .stalledEnd app.currentState) := by
  have hres : resolveNext app.graph.transitions prev app.currentState = none :=
    resolveNext_none app.currentState prev app.graph.transitions hnotrans
  have hnext : nextActionName app = none := by
    simp [nextActionName, hprev, hres]
  refine ⟨hres, ?_, ?_⟩
  · simp [step, hnext]
  · simp [iterate, hnext]

/-- The asynchronous single step agrees with the synchronous one when the
asynchronous capability of every graph action computes the same function
as the synchronous one. -/
theorem astep_eq_step (app : Application) (inputs : List (String × Value))
    (h : ∀ a, a ∈ app.graph.actions → a.runAsync = a.run) :
    astep app inputs = step app inputs := by
  simp only [astep, step]
  rcases hn : nextActionName app with _ | nm <;> simp only [hn]
  rcases hf : findAction app.graph nm with _ | a <;> simp only [hf]
  have ha : a ∈ app.graph.actions := List.mem_of_find?_eq_some hf
  rw [h a ha]

/-- The asynchronous iteration agrees with the synchronous one under the
same assumption. -/
theorem aiterate_eq_iterate :
    ∀ (fuel : Nat) (app : Application) (hb ha : List String)
      (inputs : List (String × Value)),
      (∀ a, a ∈ app.graph.actions → a.runAsync = a.run) →
      aiterate fuel app hb ha inputs = iterate fuel app hb ha inputs := by
  intro fuel
  induction fuel with
  | zero => intro app hb ha inputs _; rfl
  | succ fuel ih =>
      intro app hb ha inputs h
      simp only [aiterate, iterate]
      rcases hn : nextActionName app with _ | nm <;> simp only [hn]
      rcases hf : findAction app.graph nm with _ | a <;> simp only [hf]
      have ha2 : a ∈ app.graph.actions := List.mem_of_find?_eq_some hf
      rw [h a ha2]
      by_cases hhb : hb.contains a.name = true
      · simp only [hhb, if_true]
      · simp only [hhb, if_false, Bool.false_eq_true]
        rcases hr : a.run inputs app.currentState with _ | rs <;> simp only [hr]
        obtain ⟨r0, s0⟩ := rs
        by_cases hha : ha.contains a.name = true
        · simp only [hha, if_true]
        · simp only [hha, if_false, Bool.false_eq_true]
          rw [ih { app with currentState := commitState s0 a.name app.currentState.sequenceId }
            hb ha [] h]

/-- C7: given identical inputs and action implementations whose
asynchronous capability computes the same function as the synchronous
one, astep, aiterate and arun produce exactly the same outcomes, traces
and final values as step, iterate and run. -/
theorem async_parity (fuel : Nat) (app : Application) (hb ha : List String)
    (inputs : List (String × Value))
    (h : ∀ a, a ∈ app.graph.actions → a.runAsync = a.run) :
    astep app inputs = step app inputs ∧
    aiterate fuel app hb ha inputs = iterate fuel app hb ha inputs ∧
    arunDrain fuel app hb ha inputs = runDrain fuel app hb ha inputs := by
  have h2 := aiterate_eq_iterate fuel app hb ha inputs h
  exact ⟨astep_eq_step app inputs h, h2, by simp [arunDrain, runDrain, h2]⟩

/-- C1 (amended): with registrations consistent on the stored entries in
the pointwise sense of spec section 3, and provided no mapping stored in
the state uses the reserved marker key as an ordinary key and no state
key collides with a bookkeeping key, deserializing the serialized state
yields a state with the same non-bookkeeping entries. -/
theorem serialize_deserialize_get_all (reg : Registry) (s : State)
    (m : List (String × Json)) (hok : StateSerdeOk reg s)
    (hs : serializeState reg s = some m) :
    ∃ s2, deserializeState reg m = some s2 ∧ s2.get_all = s.get_all :=
  ⟨s, roundtrip_state reg s m hok hs, rfl⟩

/-- Formalization of the consistency wording of the round-trip claim
alone: every registered type-level serializer carries a marker naming a
registered deserializer (and nothing more).  Written from the claim
words, to be contrasted with the pointwise condition `StateSerdeOk`. -/
def RegistryMarkerPaired (reg : Registry) : Prop :=
  ∀ t f, reg.typeSer t = some f →
    ∀ r, ∃ mk, lookupKey serdeKEY (f (.vforeign t r)) = some (.jstr mk) ∧
      reg.typeDe mk ≠ none

/-- The registry with no registrations at all: consistent under any
reading of consistency. -/
def emptyRegistry : Registry :=
  ⟨fun _ => none, fun _ => none, fun _ => none⟩

/-- A state whose single entry stores a plain mapping that uses the
reserved marker key as an ordinary key. -/
def hazardState : State :=
  ⟨[("k", .vdict [(serdeKEY, .vstr "CustomClass")])], some "basic_action", 1⟩

/-- C1 counterexample: the empty registry is trivially consistent, the
hazard state serializes fine (every value is JSON-native), yet
deserialization dies on the unknown marker, so
deserialize(serialize(s)) has no value at all, let alone one whose
entries equal those of s. -/
theorem serialize_deserialize_cex :
    RegistryMarkerPaired emptyRegistry ∧
    serializeState emptyRegistry hazardState =
      some [("k", .jobj [(serdeKEY, .jstr "CustomClass")]),
            (priorStepKEY, .jstr "basic_action"), (sequenceIdKEY, .jint 1)] ∧
    deserializeState emptyRegistry
      [("k", .jobj [(serdeKEY, .jstr "CustomClass")]),
       (priorStepKEY, .jstr "basic_action"), (sequenceIdKEY, .jint 1)] = none := by
  refine ⟨?_, rfl, rfl⟩
  intro t f hf r
  exact absurd hf (by simp [emptyRegistry])

/-- C4: a field-level registration for key k is used for serialization
and deserialization of that entry, regardless of the type-level codec
registered for the type of the stored value, and its output mapping is
taken as-is (no marker key is consulted or required, since
deserialization of that entry dispatches by field name). -/
theorem field_serde_precedence (reg : Registry) (k : String) (v : Value)
    (sf : Value → List (String × Json)) (df : List (String × Json) → Option Value)
    (t : String) (r : Value)
    (hf : reg.fieldSerde k = some (sf, df))
    (_hv : v = .vforeign t r) (_ht : reg.typeSer t ≠ none) :
    serializeEntryTop reg k v = some (.jobj (sf v)) ∧
    deserializeEntryTop reg k (.jobj (sf v)) = df (sf v) := by
  constructor
  · simp [serializeEntryTop, hf]
  · simp [deserializeEntryTop, hf]

/-- C9: every serialized state mapping contains the literal bookkeeping
keys, and every value serialized through a consistently registered
type-level codec is an object carrying the literal marker key whose
value names a registered deserializer. -/
theorem serialized_state_bookkeeping_and_marker (reg : Registry) (s : State)
    (m : List (String × Json)) (hs : serializeState reg s = some m) :
    priorStepKEY ∈ m.map Prod.fst ∧ sequenceIdKEY ∈ m.map Prod.fst ∧
    (∀ t r j, serializeValue reg (.vforeign t r) = some j → foreignOk reg t r →
      ∃ es mk, j = .jobj es ∧ lookupKey serdeKEY es = some (.jstr mk) ∧
        reg.typeDe mk ≠ none) := by
  simp only [serializeState] at hs
  rcases hfs : serializeEntriesTop reg s.data with _ | fs <;> rw [hfs] at hs
  · cases hs
  simp only [Option.map_some', Option.some_inj] at hs
  subst hs
  refine ⟨?_, ?_, ?_⟩
  · simp
  · simp
  · intro t r j hj hok
    simp only [serializeValue] at hj
    rcases hreg : reg.typeSer t with _ | f <;> simp only [hreg] at hj
    · cases hj
    · simp only [Option.some_inj] at hj
      obtain ⟨mk, g, hmk, hg, _⟩ := hok f hreg
      exact ⟨f (.vforeign t r), mk, hj.symm, hmk, by simp [hg]⟩

/-- C5 counterexample: the notebook CustomClass codec pair agrees on the
marker "CustomClass", yet fails to round trip the constructible value
whose wrapped string contains the separator: the claim that marker
agreement alone gives de(ser(v)) == v for every constructible v is
false. -/
theorem typelevel_roundtrip_cex :
    (serialize_customclass ⟨'a' :: '=' :: '=' :: 'b' :: []⟩).serdeKey = "CustomClass" ∧
    deserialize_customclass (serialize_customclass ⟨'a' :: '=' :: '=' :: 'b' :: []⟩) ≠
      some ⟨'a' :: '=' :: '=' :: 'b' :: []⟩ := by
  refine ⟨rfl, ?_⟩
  decide

/-- C5 (amended): for the repository's registered type-level pair (the
notebook CustomClass codec, whose serializer and deserializer agree on
the marker "CustomClass"), de(ser(v)) == v holds for every constructible
value whose wrapped string is free of the two-equals separator that the
encoding uses. -/
theorem typelevel_roundtrip_amended (c : CustomClass)
    (h : containsEqEq c.value = false) :
    deserialize_customclass (serialize_customclass c) = some c :=
  cc_roundtrip_of_no_sep c h

/-- C10: the notebook CustomClass codec round trips a value exactly when
the wrapped string contains no occurrence of the two-equals separator. -/
theorem customclass_roundtrip_iff (c : CustomClass) :
    deserialize_customclass (serialize_customclass c) = some c ↔
      containsEqEq c.value = false := by
  constructor
  · intro h
    by_contra hne
    exact cc_roundtrip_fails_of_sep c (by simpa using hne) h
  · exact cc_roundtrip_of_no_sep c

/-- C8: update returns a state in which every key of the update mapping
holds its new value, every other key holds the same value as before, and
the bookkeeping fields are untouched; the original state is a distinct
unchanged value, since the embedding is purely functional. -/
theorem update_frame (s : State) (m : List (String × Value))
    (hnd : (m.map Prod.fst).Nodup) :
    (∀ k v, (k, v) ∈ m → lookupKey k (s.update m).data = some v) ∧
    (∀ k, k ∉ m.map Prod.fst → lookupKey k (s.update m).data = lookupKey k s.data) ∧
    (s.update m).priorStep = s.priorStep ∧
    (s.update m).sequenceId = s.sequenceId := by
  refine ⟨?_, ?_, rfl, rfl⟩
  · intro k v hm
    exact lookupKey_updateAll_mem m s.data k v hnd hm
  · intro k hk
    exact lookupKey_updateAll_not_mem m s.data k hk

/-- Concrete fixture mirroring the first notebook action: writes a value
under "dict"; the asynchronous capability computes the same function as
the synchronous one. -/
def wActionBasic : Action :=
  ⟨"basic_action", [], ["dict"],
    fun _ s => some ([("dict", .vint 1)], s.update [("dict", .vint 1)]),
    fun _ s => some ([("dict", .vint 1)], s.update [("dict", .vint 1)])⟩

/-- Concrete fixture mirroring the notebook terminal action. -/
def wActionTerminal : Action :=
  ⟨"terminal_action", ["dict"], [],
    fun _ s => some ([], s),
    fun _ s => some ([], s)⟩

/-- Concrete two-action graph with one unconditional transition. -/
def wGraph : Graph :=
  ⟨[wActionBasic, wActionTerminal],
   [⟨"basic_action", "terminal_action", none⟩],
   "basic_action"⟩

/-- Concrete fresh application over `wGraph`. -/
def wApp : Application := ⟨wGraph, ⟨[], none, 0⟩⟩

/-- Concrete graph whose only edge out of the terminal action carries an
always-false condition. -/
def wGraphStall : Graph :=
  ⟨[wActionBasic, wActionTerminal],
   [⟨"terminal_action", "basic_action", some ⟨fun _ => false⟩⟩],
   "basic_action"⟩

/-- Concrete application positioned after the terminal action, where no
transition can resolve. -/
def wAppStalled : Application := ⟨wGraphStall, ⟨[], some "terminal_action", 2⟩⟩

/-- Witness for C2 at a concrete application: halt-after executes the
action and stops with its result and committed state, halt-before stops
with the action unexecuted. -/
theorem iterate_halt_contract_witness :
    iterate 1 wApp [] ["basic_action"] [] =
      ([(wActionBasic, some [("dict", .vint 1)],
          commitState (wApp.currentState.update [("dict", .vint 1)]) "basic_action" 0)],
        .haltedAfter wActionBasic [("dict", .vint 1)]
          (commitState (wApp.currentState.update [("dict", .vint 1)]) "basic_action" 0)) ∧
    iterate 1 wApp ["basic_action"] [] [] =
      ([(wActionBasic, none, wApp.currentState)], .haltedBefore wActionBasic wApp.currentState) := by
  have h := iterate_halt_contract 0 wApp [] "basic_action" wActionBasic rfl rfl
  exact ⟨h.1 [("dict", .vint 1)] _ rfl, h.2.1⟩

/-- Witness for C3 at a concrete application: the committed step advances
the sequence id from 0 to 1. -/
theorem step_sequence_id_witness :
    (step wApp []).2.currentState.sequenceId = 1 := by
  exact ((step_sequence_id wApp []).1 wActionBasic [("dict", .vint 1)] _ _ rfl).1

/-- Witness for C6 at a concrete application: both step and iterate
report the stalled status with the application unchanged. -/
theorem stalled_is_status_witness :
    step wAppStalled [] = (.stalled, wAppStalled) ∧
    iterate 1 wAppStalled [] [] [] = ([], .stalledEnd wAppStalled.currentState) := by
  have h := stalled_is_status 0 wAppStalled [] [] [] "terminal_action" rfl
    (by
      intro t ht hsrc
      simp only [wAppStalled, wGraphStall, List.mem_singleton] at ht
      subst ht
      exact ⟨⟨fun _ => false⟩, rfl, rfl⟩)
  exact ⟨h.2.1, h.2.2⟩

/-- Witness for C7 at a concrete application whose actions have equal
synchronous and asynchronous capabilities. -/
theorem async_parity_witness :
    astep wApp [] = step wApp [] ∧
    aiterate 2 wApp [] ["terminal_action"] [] = iterate 2 wApp [] ["terminal_action"] [] := by
  have h := async_parity 2 wApp [] ["terminal_action"] []
    (by
      intro a ha
      simp only [wApp, wGraph, List.mem_cons, List.not_mem_nil, or_false] at ha
      rcases ha with h1 | h1 <;> subst h1 <;> rfl)
  exact ⟨h.1, h.2.1⟩

/-- Witness for C8 at a concrete state and mapping: the updated key holds
the new value. -/
theorem update_frame_witness :
    lookupKey "a" (((⟨[("a", .vint 1), ("b", .vint 2)], none, 0⟩ : State).update
      [("a", .vint 9)]).data) = some (.vint 9) ∧
    lookupKey "b" (((⟨[("a", .vint 1), ("b", .vint 2)], none, 0⟩ : State).update
      [("a", .vint 9)]).data) = some (.vint 2) := by
  have h := update_frame (⟨[("a", .vint 1), ("b", .vint 2)], none, 0⟩ : State)
    [("a", .vint 9)] (by simp)
  refine ⟨h.1 "a" (.vint 9) (by simp), ?_⟩
  rw [h.2.1 "b" (by simp)]
  rfl

/-- Concrete type-level serializer fixture: a lossless CustomClass-style
codec storing the wrapped string verbatim. -/
def wTypeSer : Value → List (String × Json) := fun v =>
  [(serdeKEY, .jstr "CustomClass"),
   ("value", match v with
             | .vforeign _ (.vstr s) => .jstr s
             | _ => .jnull)]

/-- Concrete type-level deserializer fixture registered under the marker
"CustomClass". -/
def wTypeDe : List (String × Json) → Option Value := fun es =>
  match lookupKey "value" es with
  | some (.jstr s) => some (.vforeign "CustomClass" (.vstr s))
  | _ => none

/-- Concrete field-level serializer fixture: emits a marker-free mapping,
as `my_field_serializer` does in the notebook. -/
def wFieldSer : Value → List (String × Json) := fun v =>
  [("value", match v with
             | .vstr s => .jstr s
             | _ => .jnull)]

/-- Concrete field-level deserializer fixture. -/
def wFieldDe : List (String × Json) → Option Value := fun es =>
  match lookupKey "value" es with
  | some (.jstr s) => some (.vstr s)
  | _ => none

/-- Concrete registry fixture holding the type codec and the field codec
for the key "custom_field", as registered in the notebook. -/
def wRegistry : Registry :=
  ⟨fun t => if t = "CustomClass" then some wTypeSer else none,
   fun mk => if mk = "CustomClass" then some wTypeDe else none,
   fun k => if k = "custom_field" then some (wFieldSer, wFieldDe) else none⟩

/-- Concrete state fixture mirroring the notebook run: a field-coded
entry plus a nested mapping holding a foreign CustomClass value. -/
def wState : State :=
  ⟨[("custom_field", .vstr "doc"),
    ("dict", .vdict [("foo", .vint 1),
                     ("bar", .vforeign "CustomClass" (.vstr "example value")),
                     ("bool", .vbool true),
                     ("None", .vnull)])],
   some "terminal_action", 3⟩

/-- The serialized mapping of `wState` under `wRegistry`. -/
def wSerialized : List (String × Json) :=
  [("custom_field", .jobj [("value", .jstr "doc")]),
   ("dict", .jobj [("foo", .jint 1),
                   ("bar", .jobj [(serdeKEY, .jstr "CustomClass"),
                                  ("value", .jstr "example value")]),
                   ("bool", .jbool true),
                   ("None", .jnull)]),
   (priorStepKEY, .jstr "terminal_action"),
   (sequenceIdKEY, .jint 3)]

/-- The fixture state satisfies the statewide consistency condition. -/
theorem wState_ok : StateSerdeOk wRegistry wState := by
  intro k v hm
  simp only [wState, List.mem_cons, List.not_mem_nil, or_false, Prod.mk.injEq] at hm
  rcases hm with ⟨hk, hv⟩ | ⟨hk, hv⟩ <;> subst hk <;> subst hv
  · exact ⟨by decide, by decide, rfl⟩
  · refine ⟨by decide, by decide, ?_, ?_⟩
    · rfl
    · refine ⟨trivial, ?_, trivial, trivial, trivial⟩
      intro f hf
      have hf2 : some wTypeSer = some f := hf
      injection hf2 with hf3
      subst hf3
      exact ⟨"CustomClass", wTypeDe, rfl, rfl, rfl⟩

/-- Witness for C1 at the concrete fixtures: the full round trip of
`wState` through `wRegistry` preserves the non-bookkeeping entries. -/
theorem serialize_deserialize_get_all_witness :
    (deserializeState wRegistry wSerialized).map State.get_all = some wState.get_all := by
  obtain ⟨s2, h1, h2⟩ :=
    serialize_deserialize_get_all wRegistry wState wSerialized wState_ok rfl
  rw [h1, Option.map_some', h2]

/-- Witness for C4 at the concrete fixtures: "custom_field" uses the
field codec even though a type codec is registered for the type of its
value, and the field output carries no marker key. -/
theorem field_serde_precedence_witness :
    serializeEntryTop wRegistry "custom_field" (.vforeign "CustomClass" (.vstr "x")) =
      some (.jobj (wFieldSer (.vforeign "CustomClass" (.vstr "x")))) ∧
    lookupKey serdeKEY (wFieldSer (.vforeign "CustomClass" (.vstr "x"))) = none := by
  refine ⟨?_, rfl⟩
  exact (field_serde_precedence wRegistry "custom_field"
    (.vforeign "CustomClass" (.vstr "x")) wFieldSer wFieldDe "CustomClass" (.vstr "x")
    rfl rfl (fun hcon => Option.noConfusion hcon)).1

/-- Witness for C9 at the concrete fixtures: both bookkeeping keys occur
in the serialized mapping. -/
theorem bookkeeping_marker_witness :
    priorStepKEY ∈ (wSerialized.map Prod.fst) ∧
    sequenceIdKEY ∈ (wSerialized.map Prod.fst) := by
  have h := serialized_state_bookkeeping_and_marker wRegistry wState wSerialized rfl
  exact ⟨h.1, h.2.1⟩

/-- Witness for C5 (amended) at a concrete separator-free value. -/
theorem typelevel_roundtrip_amended_witness :
    deserialize_customclass (serialize_customclass ⟨'e' :: 'x' :: []⟩) =
      some ⟨'e' :: 'x' :: []⟩ :=
  typelevel_roundtrip_amended ⟨'e' :: 'x' :: []⟩ (by decide)

/-- Witness for C10 at a concrete separator-free value. -/
theorem customclass_roundtrip_iff_witness :
    deserialize_customclass (serialize_customclass ⟨'o' :: 'k' :: []⟩) =
      some ⟨'o' :: 'k' :: []⟩ :=
  (customclass_roundtrip_iff ⟨'o' :: 'k' :: []⟩).mpr (by decide)

end Burr
